import Mathlib

/-!
Verification of the turborepo environment-variable hashing core
(`crates/turborepo-env/src/lib.rs`, `crates/turborepo-lib/src/env.rs`,
`crates/turborepo-lib/src/run/global_hash.rs`).

Rust `String` is modelled as Lean `String`; `HashMap<String, String>` and
`BTreeMap<String, String>` are modelled as association lists
`List (String × String)`.  All map operations keep keys unique (insertion
replaces an existing binding), mirroring both Rust map types; a canonical
key-sorted representation is maintained by `insertKV`, which mirrors
`BTreeMap::insert` exactly and is an observationally equivalent model of
`HashMap::insert` (iteration order of a `HashMap` is unspecified, and every
claim proved here is insensitive to it).  All theorems are stated through
`lookupEnv`, so no well-formedness invariant is ever assumed silently.
-/

namespace Turbo

/-- Lexicographic comparison of char lists (code-point order).  Rust compares
`String`s byte-wise on UTF-8, which coincides with code-point lexicographic
order for valid UTF-8 text. -/
def charListLe : List Char → List Char → Bool
  | [], _ => true
  | _ :: _, [] => false
  | a :: as, b :: bs => if a = b then charListLe as bs else decide (a < b)

/-- Lexicographic order on strings, as Rust's `Ord for String` orders them. -/
def strLe (a b : String) : Bool := charListLe a.data b.data

/-- An environment variable map: association list from names to values. -/
abbrev EnvMap := List (String × String)

/-- Keys of a map. -/
def keys (m : EnvMap) : List String := m.map Prod.fst

/-- Lookup of a key, mirroring `HashMap::get` / `BTreeMap::get`. -/
def lookupEnv (j : String) : EnvMap → Option String
  | [] => none
  | (k, v) :: t => if j = k then some v else lookupEnv j t

/-- Insertion mirroring `BTreeMap::insert`: replaces an existing binding for
the key, otherwise places the pair at its key-sorted position. -/
def insertKV (k v : String) : EnvMap → EnvMap
  | [] => [(k, v)]
  | (k', v') :: t =>
    if k = k' then (k, v) :: t
    else if strLe k k' then (k, v) :: (k', v') :: t
    else (k', v') :: insertKV k v t

/-- Removal of a key, mirroring `HashMap::remove` / `BTreeMap::remove`. -/
def removeKey (k : String) : EnvMap → EnvMap
  | [] => []
  | (k', v') :: t => if k' = k then removeKey k t else (k', v') :: removeKey k t

/-- EnvironmentVariableMap::union: iterate over `another` and insert every
pair into `self`, overwriting values that already exist. -/
def union (self another : EnvMap) : EnvMap :=
  another.foldl (fun acc p => insertKV p.1 p.2 acc) self

/-- EnvironmentVariableMap::difference: iterate over `another`'s keys and
remove each from `self`. -/
def difference (self another : EnvMap) : EnvMap :=
  another.foldl (fun acc p => removeKey p.1 acc) self

theorem lookup_insertKV (k v j : String) (m : EnvMap) :
    lookupEnv j (insertKV k v m) = if j = k then some v else lookupEnv j m := by
  induction m with
  | nil => by_cases hj : j = k <;> simp [insertKV, lookupEnv, hj]
  | cons p t ih =>
    obtain ⟨k', v'⟩ := p
    by_cases hk : k = k'
    · subst hk
      by_cases hj : j = k <;> simp [insertKV, lookupEnv, hj]
    · by_cases hle : strLe k k' = true
      · by_cases hj : j = k <;> simp [insertKV, lookupEnv, hk, hle, hj]
      · by_cases hj : j = k'
        · subst hj
          have hjk : ¬(j = k) := fun h => hk h.symm
          simp [insertKV, lookupEnv, hk, hle, hjk]
        · simp [insertKV, lookupEnv, hk, hle, hj, ih]

theorem mem_keys_insertKV (k v j : String) (m : EnvMap) :
    j ∈ keys (insertKV k v m) ↔ j = k ∨ j ∈ keys m := by
  induction m with
  | nil => simp [insertKV, keys]
  | cons p t ih =>
    obtain ⟨k', v'⟩ := p
    by_cases hk : k = k'
    · subst hk
      simp [insertKV, keys]
    · by_cases hle : strLe k k' = true
      · simp [insertKV, keys, hk, hle]
      · have hkeys : keys (insertKV k v ((k', v') :: t)) = k' :: keys (insertKV k v t) := by
          simp [insertKV, keys, hk, hle]
        rw [hkeys]
        simp only [List.mem_cons]
        rw [ih]
        constructor
        · rintro (h | h | h)
          · exact Or.inr (by simp [keys, h])
          · exact Or.inl h
          · exact Or.inr (by simp [keys]; right; exact (by simpa [keys] using h))
        · rintro (h | h)
          · exact Or.inr (Or.inl h)
          · rcases (by simpa [keys] using h : j = k' ∨ j ∈ keys t) with h' | h'
            · exact Or.inl h'
            · exact Or.inr (Or.inr (by simpa [keys] using h'))

theorem lookup_eq_none_iff (j : String) (m : EnvMap) :
    lookupEnv j m = none ↔ j ∉ keys m := by
  induction m with
  | nil => simp [lookupEnv, keys]
  | cons p t ih =>
    obtain ⟨k, v⟩ := p
    by_cases hj : j = k
    · simp [lookupEnv, hj, keys]
    · simp [lookupEnv, hj, keys, ih]

theorem lookup_mem (j v : String) (m : EnvMap) (h : lookupEnv j m = some v) :
    (j, v) ∈ m := by
  induction m with
  | nil => simp [lookupEnv] at h
  | cons p t ih =>
    obtain ⟨k, w⟩ := p
    by_cases hj : j = k
    · subst hj
      simp only [lookupEnv, if_pos rfl] at h
      simp only [eq_self_iff_true, if_true, Option.some.injEq] at h
      rw [← h]
      exact List.mem_cons_self _ _
    · simp only [lookupEnv, if_neg hj] at h
      exact List.mem_cons_of_mem _ (ih h)

theorem mem_lookup_of_nodup (j v : String) (m : EnvMap)
    (hnd : (keys m).Nodup) (h : (j, v) ∈ m) : lookupEnv j m = some v := by
  induction m with
  | nil => simp at h
  | cons p t ih =>
    obtain ⟨k, w⟩ := p
    simp only [keys, List.map_cons, List.nodup_cons] at hnd
    rcases List.mem_cons.mp h with h1 | h2
    · rw [Prod.mk.injEq] at h1
      obtain ⟨h1a, h1b⟩ := h1
      subst h1a
      subst h1b
      simp [lookupEnv]
    · have hj : j ≠ k := by
        intro hjk
        subst hjk
        exact hnd.1 (List.mem_map.mpr ⟨(j, v), h2, rfl⟩)
      simp only [lookupEnv, if_neg hj]
      exact ih hnd.2 h2

theorem lookup_removeKey (k j : String) (m : EnvMap) :
    lookupEnv j (removeKey k m) = if j = k then none else lookupEnv j m := by
  induction m with
  | nil => simp [removeKey, lookupEnv]
  | cons p t ih =>
    obtain ⟨k', v'⟩ := p
    by_cases hk : k' = k
    · subst hk
      have hrw : removeKey k' ((k', v') :: t) = removeKey k' t := by simp [removeKey]
      rw [hrw, ih]
      by_cases hj : j = k' <;> simp [lookupEnv, hj]
    · simp only [removeKey, if_neg hk, lookupEnv]
      by_cases hj : j = k'
      · subst hj
        have hjk : ¬(j = k) := hk
        simp [hjk]
      · simp [hj, ih]

theorem lookup_difference (b a : EnvMap) (j : String) :
    lookupEnv j (difference a b) = if j ∈ keys b then none else lookupEnv j a := by
  induction b generalizing a with
  | nil => simp [difference, keys]
  | cons p t ih =>
    obtain ⟨k, v⟩ := p
    show lookupEnv j (difference (removeKey k a) t) = _
    rw [ih]
    have hkeys : keys ((k, v) :: t) = k :: keys t := rfl
    rw [hkeys]
    by_cases hj : j = k <;> by_cases hmem : j ∈ keys t <;>
      simp [List.mem_cons, hj, hmem, lookup_removeKey]

theorem lookup_union_of_none (b a : EnvMap) (j : String)
    (h : lookupEnv j b = none) : lookupEnv j (union a b) = lookupEnv j a := by
  induction b generalizing a with
  | nil => simp [union]
  | cons p t ih =>
    obtain ⟨k, v⟩ := p
    simp only [lookupEnv] at h
    by_cases hj : j = k
    · simp [hj] at h
    · simp only [if_neg hj] at h
      show lookupEnv j (union (insertKV k v a) t) = _
      rw [ih _ h, lookup_insertKV, if_neg hj]

theorem lookup_union_of_some (b a : EnvMap) (j v : String)
    (hnd : (keys b).Nodup) (h : lookupEnv j b = some v) :
    lookupEnv j (union a b) = some v := by
  induction b generalizing a with
  | nil => simp [lookupEnv] at h
  | cons p t ih =>
    obtain ⟨k, w⟩ := p
    simp only [keys, List.map_cons, List.nodup_cons] at hnd
    by_cases hj : j = k
    · subst hj
      simp only [lookupEnv, if_pos rfl] at h
      simp only [eq_self_iff_true, if_true, Option.some.injEq] at h
      have ht : lookupEnv j t = none := by
        rw [lookup_eq_none_iff]
        exact fun hmem => hnd.1 hmem
      show lookupEnv j (union (insertKV j w a) t) = some v
      rw [lookup_union_of_none _ _ _ ht, lookup_insertKV, if_pos rfl, h]
    · simp only [lookupEnv, if_neg hj] at h
      show lookupEnv j (union (insertKV k w a) t) = some v
      exact ih _ hnd.2 h

theorem lookup_union_some_cases (b a : EnvMap) (j v : String)
    (h : lookupEnv j (union a b) = some v) :
    lookupEnv j a = some v ∨ (j, v) ∈ b := by
  induction b generalizing a with
  | nil => exact Or.inl h
  | cons p t ih =>
    obtain ⟨k, w⟩ := p
    have h' : lookupEnv j (union (insertKV k w a) t) = some v := h
    rcases ih _ h' with h1 | h2
    · rw [lookup_insertKV] at h1
      by_cases hj : j = k
      · rw [if_pos hj] at h1
        right
        rw [Option.some.injEq] at h1
        subst h1
        subst hj
        exact List.mem_cons_self _ _
      · rw [if_neg hj] at h1
        exact Or.inl h1
    · exact Or.inr (List.mem_cons_of_mem _ h2)

/-! Regex-fragment model.

The fragments emitted by `wildcard_to_regex_pattern` use only a tiny regex
subset: escaped literal characters, unescaped non-meta characters, the
dynamic segment `.*`, a bare `.`, and a `*` repetition applied to the
preceding single-character atom.  `parseFrag` and `matchToks` below embed the
external `regex` crate's treatment of exactly that subset. -/

/-- Modelled from the spec: a token of the compiled anchored regex fragment.
The external `regex` crate (not part of this repository's sources) interprets
the fragment; the spec describes the dynamic segment as "match any sequence
of characters" and literal runs as matching themselves. -/
inductive RTok where
  | lit : Char → RTok
  | rep : Char → RTok
  | star : RTok
  | dot : RTok
deriving DecidableEq

/-- Characters the `regex` crate's `escape` prefixes with a backslash
(its meta-character set). -/
def isMeta (c : Char) : Bool :=
  c = '\\' || c = '.' || c = '+' || c = '*' || c = '?' || c = '(' || c = ')' ||
  c = '|' || c = '[' || c = ']' || c = Char.ofNat 123 || c = Char.ofNat 125 ||
  c = '^' || c = '$' || c = '#' || c = '&' || c = '-' || c = '~'

/-- regex::escape: prefix every meta character with a backslash. -/
def regexEscape : List Char → List Char
  | [] => []
  | c :: t => (if isMeta c then ['\\', c] else [c]) ++ regexEscape t

/-- Modelled from the spec: parsing of an emitted fragment by the external
`regex` crate.  `\c` is a literal atom, `.*` the dynamic any-sequence
segment, a bare `.` matches any single character, a trailing `*` repeats the
preceding one-character atom, and a bare meta character (e.g. a `*` with
nothing before it) is a syntax error, reported as `none` just as
`Regex::new` reports `Err`. -/
def parseFrag : List Char → Option (List RTok)
  | [] => some []
  | '\\' :: c :: '*' :: rest => (parseFrag rest).map (fun ts => RTok.rep c :: ts)
  | '\\' :: c :: rest => (parseFrag rest).map (fun ts => RTok.lit c :: ts)
  | '.' :: '*' :: rest => (parseFrag rest).map (fun ts => RTok.star :: ts)
  | '.' :: rest => (parseFrag rest).map (fun ts => RTok.dot :: ts)
  | c :: '*' :: rest =>
    if isMeta c then none else (parseFrag rest).map (fun ts => RTok.rep c :: ts)
  | c :: rest =>
    if isMeta c then none else (parseFrag rest).map (fun ts => RTok.lit c :: ts)

/-- Fuel-indexed anchored matching of a parsed fragment.  Every recursive
call strictly decreases `ts.length + s.length`, so any fuel above that
measure computes the match; the fuel only makes the recursion structural. -/
def matchToksF : Nat → List RTok → List Char → Bool
  | 0, _, _ => false
  | _ + 1, [], [] => true
  | _ + 1, [], _ :: _ => false
  | _ + 1, RTok.lit _ :: _, [] => false
  | f + 1, RTok.lit c :: ts, x :: xs => c == x && matchToksF f ts xs
  | _ + 1, RTok.dot :: _, [] => false
  | f + 1, RTok.dot :: ts, _ :: xs => matchToksF f ts xs
  | f + 1, RTok.rep _ :: ts, [] => matchToksF f ts []
  | f + 1, RTok.rep c :: ts, x :: xs =>
    matchToksF f ts (x :: xs) || (c == x && matchToksF f (RTok.rep c :: ts) xs)
  | f + 1, RTok.star :: ts, [] => matchToksF f ts []
  | f + 1, RTok.star :: ts, x :: xs =>
    matchToksF f ts (x :: xs) || matchToksF f (RTok.star :: ts) xs

/-- Modelled from the spec: anchored matching of a parsed fragment, i.e. the
semantics of `Regex::is_match` for `^(fragment)$`: the whole input must be
consumed (partial matches never count). -/
def matchToks (ts : List RTok) (s : List Char) : Bool :=
  matchToksF (ts.length + s.length + 1) ts s

theorem matchToksF_congr (f : Nat) :
    ∀ (g : Nat) (ts : List RTok) (s : List Char),
      ts.length + s.length < f → ts.length + s.length < g →
      matchToksF f ts s = matchToksF g ts s := by
  induction f with
  | zero => intro g ts s hf; omega
  | succ f ih =>
    intro g ts s hf hg
    cases g with
    | zero => omega
    | succ g =>
      match ts, s with
      | [], [] => rfl
      | [], _ :: _ => rfl
      | RTok.lit _ :: _, [] => rfl
      | RTok.lit c :: ts, x :: xs =>
        simp only [matchToksF]
        rw [ih g ts xs (by simp at hf ⊢; omega) (by simp at hg ⊢; omega)]
      | RTok.dot :: _, [] => rfl
      | RTok.dot :: ts, _ :: xs =>
        simp only [matchToksF]
        rw [ih g ts xs (by simp at hf ⊢; omega) (by simp at hg ⊢; omega)]
      | RTok.rep _ :: ts, [] =>
        simp only [matchToksF]
        rw [ih g ts [] (by simp at hf ⊢; omega) (by simp at hg ⊢; omega)]
      | RTok.rep c :: ts, x :: xs =>
        simp only [matchToksF]
        rw [ih g ts (x :: xs) (by simp at hf ⊢; omega) (by simp at hg ⊢; omega),
          ih g (RTok.rep c :: ts) xs (by simp at hf ⊢; omega)
            (by simp at hg ⊢; omega)]
      | RTok.star :: ts, [] =>
        simp only [matchToksF]
        rw [ih g ts [] (by simp at hf ⊢; omega) (by simp at hg ⊢; omega)]
      | RTok.star :: ts, x :: xs =>
        simp only [matchToksF]
        rw [ih g ts (x :: xs) (by simp at hf ⊢; omega) (by simp at hg ⊢; omega),
          ih g (RTok.star :: ts) xs (by simp at hf ⊢; omega)
            (by simp at hg ⊢; omega)]

/-- Modelled from the spec: matching the anchored alternation
`^(f1|f2|...)$` — the input must fully match one of the alternatives. -/
def matchesAlt (toks : List (List RTok)) (s : List Char) : Bool :=
  toks.any (fun t => matchToks t s)

theorem matchToksF_lits (f : Nat) :
    ∀ (l s : List Char), l.length + s.length < f →
      (matchToksF f (l.map RTok.lit) s = true ↔ s = l) := by
  induction f with
  | zero => intro l s h; omega
  | succ f ih =>
    intro l s h
    match l, s with
    | [], [] => simp [matchToksF]
    | [], _ :: _ => simp [matchToksF]
    | _ :: _, [] => simp [matchToksF]
    | c :: l, x :: xs =>
      simp only [List.map_cons, matchToksF, Bool.and_eq_true, beq_iff_eq,
        List.cons.injEq]
      rw [ih l xs (by simp at h ⊢; omega)]
      tauto

theorem matchToks_lits (l s : List Char) :
    matchToks (l.map RTok.lit) s = true ↔ s = l := by
  have := matchToksF_lits ((l.map RTok.lit).length + s.length + 1) l s
    (by simp only [List.length_map]; omega)
  simpa [matchToks] using this

/-! UTF-8 byte slicing.

Rust's `&pattern[a..b]` slices by byte offset and panics when an offset does
not fall on a character boundary.  `wildcard_to_regex_pattern` uses
`chars().enumerate()` positions (character indices) as byte offsets, so the
model keeps both faithfully: offsets are interpreted against the UTF-8 byte
widths (`Char.utf8Size`) and a mid-character offset yields `none`, the model
of the Rust panic. -/

/-- Take the first `n` bytes of a char list; `none` when `n` is not a char
boundary or exceeds the text. -/
def takeBytes : List Char → Nat → Option (List Char)
  | _, 0 => some []
  | [], _ + 1 => none
  | c :: cs, n + 1 =>
    if c.utf8Size ≤ n + 1 then (takeBytes cs (n + 1 - c.utf8Size)).map (fun l => c :: l)
    else none

/-- Drop the first `n` bytes of a char list; `none` when `n` is not a char
boundary or exceeds the text. -/
def dropBytes : List Char → Nat → Option (List Char)
  | cs, 0 => some cs
  | [], _ + 1 => none
  | c :: cs, n + 1 =>
    if c.utf8Size ≤ n + 1 then dropBytes cs (n + 1 - c.utf8Size) else none

/-- Rust's `&s[a..b]`: byte-offset slice, `none` modelling the panic. -/
def sliceBytes (cs : List Char) (a b : Nat) : Option (List Char) :=
  if a ≤ b then (dropBytes cs a).bind (fun t => takeBytes t (b - a)) else none

/-- The constant `REGEX_WILDCARD_SEGMENT = ".*"`. -/
def regexWildcardSegment : List Char := ['.', '*']

/-- Loop of `wildcard_to_regex_pattern` (turborepo-env variant): walks the
pattern by `chars().enumerate()` index `i`, keeping `previous_index` (used as
a byte offset when slicing) and `previous_char`; collects the emitted
segments.  The escaped-asterisk branch emits
`regex::escape(format!("{}*", &pattern[previous_index..i-1]))`. -/
def compileLoopEnv (p : List Char) :
    List Char → Nat → Nat → Option Char → List (List Char) →
    Option (List (List Char))
  | [], _, prevIdx, _, acc =>
    (dropBytes p prevIdx).map (fun tail => acc ++ [regexEscape tail])
  | c :: rest, i, prevIdx, prevChar, acc =>
    if c = '*' then
      if prevChar = some '\\' then
        (sliceBytes p prevIdx (i - 1)).bind (fun run =>
          compileLoopEnv p rest (i + 1) (i + 1) (some c)
            (acc ++ [regexEscape (run ++ ['*'])]))
      else
        (sliceBytes p prevIdx i).bind (fun run =>
          let acc1 := acc ++ [regexEscape run]
          let acc2 :=
            if acc1.getLast? = some regexWildcardSegment then acc1
            else acc1 ++ [regexWildcardSegment]
          compileLoopEnv p rest (i + 1) (i + 1) (some c) acc2)
    else compileLoopEnv p rest (i + 1) prevIdx (some c) acc

/-- Loop of `wildcard_to_regex_pattern` (turborepo-lib variant).  Identical
except for the escaped-asterisk branch, which emits
`format!("{}*", regex::escape(&pattern[previous_index..i-1]))` — the `*` is
appended after escaping. -/
def compileLoopLib (p : List Char) :
    List Char → Nat → Nat → Option Char → List (List Char) →
    Option (List (List Char))
  | [], _, prevIdx, _, acc =>
    (dropBytes p prevIdx).map (fun tail => acc ++ [regexEscape tail])
  | c :: rest, i, prevIdx, prevChar, acc =>
    if c = '*' then
      if prevChar = some '\\' then
        (sliceBytes p prevIdx (i - 1)).bind (fun run =>
          compileLoopLib p rest (i + 1) (i + 1) (some c)
            (acc ++ [regexEscape run ++ ['*']]))
      else
        (sliceBytes p prevIdx i).bind (fun run =>
          let acc1 := acc ++ [regexEscape run]
          let acc2 :=
            if acc1.getLast? = some regexWildcardSegment then acc1
            else acc1 ++ [regexWildcardSegment]
          compileLoopLib p rest (i + 1) (i + 1) (some c) acc2)
    else compileLoopLib p rest (i + 1) prevIdx (some c) acc

/-- Emitted segment list of `wildcard_to_regex_pattern` (turborepo-env). -/
def wildcardSegsEnv (p : List Char) : Option (List (List Char)) :=
  compileLoopEnv p p 0 0 none []

/-- wildcard_to_regex_pattern (turborepo-env): `regex_string.join("")`. -/
def wildcardToRegexPatternEnv (p : List Char) : Option (List Char) :=
  (wildcardSegsEnv p).map List.flatten

/-- Emitted segment list of `wildcard_to_regex_pattern` (turborepo-lib). -/
def wildcardSegsLib (p : List Char) : Option (List (List Char)) :=
  compileLoopLib p p 0 0 none []

/-- wildcard_to_regex_pattern (turborepo-lib): `regex_string.join("")`. -/
def wildcardToRegexPatternLib (p : List Char) : Option (List Char) :=
  (wildcardSegsLib p).map List.flatten

example : wildcardToRegexPatternEnv "A\\*B".data = some "A\\*B".data := by decide
example : wildcardToRegexPatternLib "A\\*B".data = some "A*B".data := by decide
example : wildcardToRegexPatternEnv "é*".data = none := by decide
example : wildcardToRegexPatternEnv "A**".data = some "A.*.*".data := by decide
example : wildcardToRegexPatternEnv "A*B*C".data = some "A.*B.*C".data := by decide
example : wildcardToRegexPatternEnv "LITERAL_\\*".data = some "LITERAL_\\*".data := by
  decide
example : parseFrag "A\\*B".data = some [RTok.lit 'A', RTok.lit '*', RTok.lit 'B'] := by
  decide
example : parseFrag "A*B".data = some [RTok.rep 'A', RTok.lit 'B'] := by decide

/-! The wildcard resolver (`WildcardMaps`, `wildcard_map_from_wildcards`,
`resolve`, `from_wildcards`, `from_wildcards_unresolved`) of
`crates/turborepo-env/src/lib.rs`. -/

/-- WildcardMaps: the pair of inclusion and exclusion maps. -/
structure WildcardMaps where
  inclusions : EnvMap
  exclusions : EnvMap
deriving DecidableEq

/-- Pattern-classification loop of `wildcard_map_from_wildcards`: a leading
`!` makes the rest an exclusion body, a leading `\` followed by `!` makes
`pattern[1..]` (escape dropped, `!` kept) an inclusion body, anything else is
an inclusion body; each body is compiled with `wildcard_to_regex_pattern`.
Returns the two fragment vectors (`include_patterns`, `exclude_patterns`);
`none` models the compiler's panic propagating. -/
def splitPatterns : List String → Option (List (List Char) × List (List Char))
  | [] => some ([], [])
  | p :: rest =>
    let cs := p.data
    if cs.head? = some '!' then
      (wildcardToRegexPatternEnv (cs.drop 1)).bind (fun e =>
        (splitPatterns rest).map (fun ie => (ie.1, e :: ie.2)))
    else if cs.head? = some '\\' ∧ (cs.drop 1).head? = some '!' then
      (wildcardToRegexPatternEnv (cs.drop 1)).bind (fun i =>
        (splitPatterns rest).map (fun ie => (i :: ie.1, ie.2)))
    else
      (wildcardToRegexPatternEnv cs).bind (fun i =>
        (splitPatterns rest).map (fun ie => (i :: ie.1, ie.2)))

/-- Compilation of the joined alternation `^(f1|f2|...)$` by `Regex::new`:
every fragment must parse; `none` models `Err`.  (With no fragments the
alternation `^()$` still compiles, to a regex matching only the empty
string; both call sites guard matching with `!patterns.is_empty()`, so the
model keeps the guard and represents the compiled empty alternation by the
empty token list.) -/
def compileAlt : List (List Char) → Option (List (List RTok))
  | [] => some []
  | f :: rest =>
    (parseFrag f).bind (fun t => (compileAlt rest).map (fun ts => t :: ts))

/-- Body of the partition loop of `wildcard_map_from_wildcards` for one
`(k, v)` entry: if the include alternation is non-empty and matches `k`,
insert into `inclusions`; independently, if the exclude alternation is
non-empty and matches `k`, insert into `exclusions`. -/
def partitionStep (incNE excNE : Bool) (incT excT : List (List RTok))
    (k v : String) (out : WildcardMaps) : WildcardMaps :=
  let out1 :=
    if (incNE && matchesAlt incT k.data) = true then
      WildcardMaps.mk (insertKV k v out.inclusions) out.exclusions
    else out
  if (excNE && matchesAlt excT k.data) = true then
    WildcardMaps.mk out1.inclusions (insertKV k v out1.exclusions)
  else out1

/-- Partition loop of `wildcard_map_from_wildcards`: apply `partitionStep`
to every entry of the source map in turn. -/
def partitionLoop (incNE excNE : Bool) (incT excT : List (List RTok)) :
    List (String × String) → WildcardMaps → WildcardMaps
  | [], out => out
  | (k, v) :: rest, out =>
    partitionLoop incNE excNE incT excT rest
      (partitionStep incNE excNE incT excT k v out)

/-- EnvironmentVariableMap::wildcard_map_from_wildcards (turborepo-env):
classify and compile the patterns, build both anchored alternations, then
partition the map.  `none` models a compiler panic or a `Regex::new`
error. -/
def wildcardMapFromWildcards (m : EnvMap) (ps : List String) :
    Option WildcardMaps :=
  (splitPatterns ps).bind (fun ie =>
    (compileAlt ie.1).bind (fun incT =>
      (compileAlt ie.2).map (fun excT =>
        partitionLoop (!ie.1.isEmpty) (!ie.2.isEmpty) incT excT m
          (WildcardMaps.mk [] []))))

/-- WildcardMaps::resolve: start from `inclusions` and remove every key of
`exclusions`. -/
def resolve (wm : WildcardMaps) : EnvMap :=
  wm.exclusions.foldl (fun acc p => removeKey p.1 acc) wm.inclusions

/-- EnvironmentVariableMap::from_wildcards (turborepo-env): an empty pattern
list yields an empty map immediately; otherwise partition and resolve. -/
def fromWildcards (m : EnvMap) (ps : List String) : Option EnvMap :=
  if ps.isEmpty then some []
  else (wildcardMapFromWildcards m ps).map resolve

/-- EnvironmentVariableMap::from_wildcards_unresolved (turborepo-env): an
empty pattern list yields an empty pair immediately; otherwise the
unresolved partition. -/
def fromWildcardsUnresolved (m : EnvMap) (ps : List String) :
    Option WildcardMaps :=
  if ps.isEmpty then some (WildcardMaps.mk [] [])
  else wildcardMapFromWildcards m ps

/-! The hash-input builder of
`crates/turborepo-lib/src/run/global_hash.rs` (environment-variable part).

The builder calls `from_wildcards` / `from_wildcards_unresolved` of
`crate::env` (`turborepo-lib/src/env.rs`).  That module's `from_wildcards`
is a defective duplicate — it calls itself recursively for every non-empty
pattern list instead of `wildcard_map_from_wildcards`, and the module
references an undefined identifier `evm` — so the partition-then-resolve
semantics (identical to the compiling twin implementation in
`turborepo-env/src/lib.rs` above, and stated by the spec as the intended
contract) is used here. -/

/-- BySource: the by-source breakdown of a DetailedMap. -/
structure BySource where
  explicit : EnvMap
  matching : EnvMap
deriving DecidableEq

/-- DetailedMap: the composite map plus the by-source breakdown. -/
structure DetailedMap where
  all : EnvMap
  by_source : BySource
deriving DecidableEq

/-- The hardcoded default allow-list `DEFAULT_ENV_VARS`. -/
def DEFAULT_ENV_VARS : List String := ["VERCEL_ANALYTICS_ID"]

/-- Environment-variable part of `get_global_hash_inputs`: compute the
default map from `DEFAULT_ENV_VARS`, the unresolved user set from the
user-supplied patterns, then assemble `all` / `explicit` / `matching` by
union followed by removal of the user exclusions. -/
def getGlobalHashInputs (snapshot : EnvMap) (globalEnv : List String) :
    Option DetailedMap :=
  (fromWildcards snapshot DEFAULT_ENV_VARS).bind (fun defaultMap =>
    (fromWildcardsUnresolved snapshot globalEnv).map (fun userSet =>
      let allMap := difference (union (union [] userSet.inclusions) defaultMap)
        userSet.exclusions
      let explicitMap := difference (union [] userSet.inclusions) userSet.exclusions
      let matchingMap := difference (union [] defaultMap) userSet.exclusions
      DetailedMap.mk allMap (BySource.mk explicitMap matchingMap)))

example :
    getGlobalHashInputs
      [("BAR", "2"), ("FOO", "1"), ("VERCEL_ANALYTICS_ID", "x")]
      ["FOO", "!BAR"] =
    some (DetailedMap.mk [("FOO", "1"), ("VERCEL_ANALYTICS_ID", "x")]
      (BySource.mk [("FOO", "1")] [("VERCEL_ANALYTICS_ID", "x")])) := by decide

/-! Lemmas about the partition loop, resolution, and containment. -/

theorem resolve_eq_difference (wm : WildcardMaps) :
    resolve wm = difference wm.inclusions wm.exclusions := rfl

theorem lookup_resolve (wm : WildcardMaps) (j : String) :
    lookupEnv j (resolve wm) =
      if j ∈ keys wm.exclusions then none else lookupEnv j wm.inclusions := by
  rw [resolve_eq_difference, lookup_difference]

theorem partitionStep_exclusions_preserve (incNE excNE : Bool)
    (incT excT : List (List RTok)) (k v j : String) (out : WildcardMaps)
    (h : j ∈ keys out.exclusions) :
    j ∈ keys (partitionStep incNE excNE incT excT k v out).exclusions := by
  by_cases h1 : (incNE && matchesAlt incT k.data) = true <;>
    by_cases h2 : (excNE && matchesAlt excT k.data) = true <;>
      simp [partitionStep, h1, h2, mem_keys_insertKV, h]

theorem partitionStep_exclusions_insert (incNE : Bool)
    (incT excT : List (List RTok)) (k v : String) (out : WildcardMaps)
    (hmatch : matchesAlt excT k.data = true) :
    k ∈ keys (partitionStep incNE true incT excT k v out).exclusions := by
  by_cases h1 : (incNE && matchesAlt incT k.data) = true <;>
    simp [partitionStep, h1, hmatch, mem_keys_insertKV]

theorem partitionLoop_exclusions_preserve (incNE excNE : Bool)
    (incT excT : List (List RTok)) (m : List (String × String)) (j : String) :
    ∀ out : WildcardMaps, j ∈ keys out.exclusions →
      j ∈ keys (partitionLoop incNE excNE incT excT m out).exclusions := by
  induction m with
  | nil => intro out h; exact h
  | cons p t ih =>
    intro out h
    obtain ⟨k, v⟩ := p
    exact ih _ (partitionStep_exclusions_preserve incNE excNE incT excT k v j out h)

theorem partitionLoop_exclusions_insert (incNE : Bool)
    (incT excT : List (List RTok)) (m : List (String × String)) (k v : String)
    (hk : (k, v) ∈ m) (hmatch : matchesAlt excT k.data = true) :
    ∀ out : WildcardMaps,
      k ∈ keys (partitionLoop incNE true incT excT m out).exclusions := by
  induction m with
  | nil => simp at hk
  | cons p t ih =>
    intro out
    obtain ⟨k', v'⟩ := p
    rcases List.mem_cons.mp hk with h1 | h2
    · rw [Prod.mk.injEq] at h1
      obtain ⟨h1a, h1b⟩ := h1
      subst h1a
      subst h1b
      exact partitionLoop_exclusions_preserve incNE true incT excT t k _
        (partitionStep_exclusions_insert incNE incT excT k v out hmatch)
    · exact ih h2 _

theorem mem_insertKV_cases (k w j v : String) (m : EnvMap)
    (h : (j, v) ∈ insertKV k w m) : (j = k ∧ v = w) ∨ (j, v) ∈ m := by
  induction m with
  | nil =>
    simp only [insertKV, List.mem_singleton, Prod.mk.injEq] at h
    exact Or.inl h
  | cons p t ih =>
    obtain ⟨k', v'⟩ := p
    by_cases hk : k = k'
    · subst hk
      rw [show insertKV k w ((k, v') :: t) = (k, w) :: t from by simp [insertKV]] at h
      rcases List.mem_cons.mp h with h1 | h1
      · rw [Prod.mk.injEq] at h1
        exact Or.inl h1
      · exact Or.inr (List.mem_cons_of_mem _ h1)
    · by_cases hle : strLe k k' = true
      · rw [show insertKV k w ((k', v') :: t) = (k, w) :: (k', v') :: t from by
          simp [insertKV, hk, hle]] at h
        rcases List.mem_cons.mp h with h1 | h1
        · rw [Prod.mk.injEq] at h1
          exact Or.inl h1
        · exact Or.inr h1
      · rw [show insertKV k w ((k', v') :: t) = (k', v') :: insertKV k w t from by
          simp [insertKV, hk, hle]] at h
        rcases List.mem_cons.mp h with h1 | h1
        · exact Or.inr (List.mem_cons.mpr (Or.inl h1))
        · rcases ih h1 with h2 | h2
          · exact Or.inl h2
          · exact Or.inr (List.mem_cons_of_mem _ h2)

theorem mem_removeKey_sub (k j v : String) (m : EnvMap)
    (h : (j, v) ∈ removeKey k m) : (j, v) ∈ m := by
  induction m with
  | nil => simp [removeKey] at h
  | cons p t ih =>
    obtain ⟨k', v'⟩ := p
    by_cases hk : k' = k
    · simp only [removeKey, if_pos hk] at h
      exact List.mem_cons_of_mem _ (ih h)
    · simp only [removeKey, if_neg hk, List.mem_cons] at h
      rcases h with h | h
      · exact List.mem_cons.mpr (Or.inl h)
      · exact List.mem_cons_of_mem _ (ih h)

theorem mem_difference_sub (b a : EnvMap) (j v : String)
    (h : (j, v) ∈ difference a b) : (j, v) ∈ a := by
  induction b generalizing a with
  | nil => exact h
  | cons p t ih =>
    obtain ⟨k, w⟩ := p
    have h' : (j, v) ∈ difference (removeKey k a) t := h
    exact mem_removeKey_sub _ _ _ _ (ih _ h')

theorem mem_union_cases (b a : EnvMap) (j v : String)
    (h : (j, v) ∈ union a b) : (j, v) ∈ a ∨ (j, v) ∈ b := by
  induction b generalizing a with
  | nil => exact Or.inl h
  | cons p t ih =>
    obtain ⟨k, w⟩ := p
    have h' : (j, v) ∈ union (insertKV k w a) t := h
    rcases ih _ h' with h1 | h2
    · rcases mem_insertKV_cases _ _ _ _ _ h1 with h' | h'
      · exact Or.inr (List.mem_cons.mpr (Or.inl (by simp [h'.1, h'.2])))
      · exact Or.inl h'
    · exact Or.inr (List.mem_cons_of_mem _ h2)

theorem partitionStep_mem_inclusions (incNE excNE : Bool)
    (incT excT : List (List RTok)) (k v j w : String) (out : WildcardMaps)
    (h : (j, w) ∈ (partitionStep incNE excNE incT excT k v out).inclusions) :
    (j, w) ∈ out.inclusions ∨ (j = k ∧ w = v) := by
  by_cases h1 : (incNE && matchesAlt incT k.data) = true
  · have h' : (j, w) ∈ insertKV k v out.inclusions := by
      by_cases h2 : (excNE && matchesAlt excT k.data) = true <;>
        simpa [partitionStep, h1, h2] using h
    rcases mem_insertKV_cases _ _ _ _ _ h' with hc | hc
    · exact Or.inr hc
    · exact Or.inl hc
  · exact Or.inl (by
      by_cases h2 : (excNE && matchesAlt excT k.data) = true <;>
        simpa [partitionStep, h1, h2] using h)

theorem partitionStep_mem_exclusions (incNE excNE : Bool)
    (incT excT : List (List RTok)) (k v j w : String) (out : WildcardMaps)
    (h : (j, w) ∈ (partitionStep incNE excNE incT excT k v out).exclusions) :
    (j, w) ∈ out.exclusions ∨ (j = k ∧ w = v) := by
  by_cases h2 : (excNE && matchesAlt excT k.data) = true
  · have h' : (j, w) ∈ insertKV k v out.exclusions := by
      by_cases h1 : (incNE && matchesAlt incT k.data) = true <;>
        simpa [partitionStep, h1, h2] using h
    rcases mem_insertKV_cases _ _ _ _ _ h' with hc | hc
    · exact Or.inr hc
    · exact Or.inl hc
  · exact Or.inl (by
      by_cases h1 : (incNE && matchesAlt incT k.data) = true <;>
        simpa [partitionStep, h1, h2] using h)

theorem partitionLoop_mem_inclusions (incNE excNE : Bool)
    (incT excT : List (List RTok)) (m : List (String × String)) (j v : String) :
    ∀ out : WildcardMaps,
      (j, v) ∈ (partitionLoop incNE excNE incT excT m out).inclusions →
      (j, v) ∈ out.inclusions ∨ (j, v) ∈ m := by
  induction m with
  | nil => intro out h; exact Or.inl h
  | cons p t ih =>
    intro out h
    obtain ⟨k, w⟩ := p
    rcases ih _ h with h1 | h2
    · rcases partitionStep_mem_inclusions incNE excNE incT excT k w j v out h1 with
        hc | hc
      · exact Or.inl hc
      · exact Or.inr (List.mem_cons.mpr (Or.inl (by simp [hc.1, hc.2])))
    · exact Or.inr (List.mem_cons_of_mem _ h2)

theorem partitionLoop_mem_exclusions (incNE excNE : Bool)
    (incT excT : List (List RTok)) (m : List (String × String)) (j v : String) :
    ∀ out : WildcardMaps,
      (j, v) ∈ (partitionLoop incNE excNE incT excT m out).exclusions →
      (j, v) ∈ out.exclusions ∨ (j, v) ∈ m := by
  induction m with
  | nil => intro out h; exact Or.inl h
  | cons p t ih =>
    intro out h
    obtain ⟨k, w⟩ := p
    rcases ih _ h with h1 | h2
    · rcases partitionStep_mem_exclusions incNE excNE incT excT k w j v out h1 with
        hc | hc
      · exact Or.inl hc
      · exact Or.inr (List.mem_cons.mpr (Or.inl (by simp [hc.1, hc.2])))
    · exact Or.inr (List.mem_cons_of_mem _ h2)

theorem wildcardMap_eq (m : EnvMap) (ps : List String)
    (incF excF : List (List Char)) (incT excT : List (List RTok))
    (hsplit : splitPatterns ps = some (incF, excF))
    (hinc : compileAlt incF = some incT)
    (hexc : compileAlt excF = some excT) :
    wildcardMapFromWildcards m ps =
      some (partitionLoop (!incF.isEmpty) (!excF.isEmpty) incT excT m
        (WildcardMaps.mk [] [])) := by
  simp [wildcardMapFromWildcards, hsplit, hinc, hexc]

theorem wildcardMap_mem_inclusions (m : EnvMap) (ps : List String)
    (wm : WildcardMaps) (j v : String)
    (hwm : wildcardMapFromWildcards m ps = some wm)
    (h : (j, v) ∈ wm.inclusions) : (j, v) ∈ m := by
  simp only [wildcardMapFromWildcards, Option.bind_eq_some, Option.map_eq_some'] at hwm
  obtain ⟨ie, _, incT, _, excT, _, heq⟩ := hwm
  subst heq
  rcases partitionLoop_mem_inclusions _ _ _ _ _ _ _ _ h with h' | h'
  · simp at h'
  · exact h'

theorem wildcardMap_mem_exclusions (m : EnvMap) (ps : List String)
    (wm : WildcardMaps) (j v : String)
    (hwm : wildcardMapFromWildcards m ps = some wm)
    (h : (j, v) ∈ wm.exclusions) : (j, v) ∈ m := by
  simp only [wildcardMapFromWildcards, Option.bind_eq_some, Option.map_eq_some'] at hwm
  obtain ⟨ie, _, incT, _, excT, _, heq⟩ := hwm
  subst heq
  rcases partitionLoop_mem_exclusions _ _ _ _ _ _ _ _ h with h' | h'
  · simp at h'
  · exact h'

theorem mem_resolve_sub (wm : WildcardMaps) (j v : String)
    (h : (j, v) ∈ resolve wm) : (j, v) ∈ wm.inclusions := by
  rw [resolve_eq_difference] at h
  exact mem_difference_sub _ _ _ _ h

theorem fromWildcards_mem_sub (m : EnvMap) (ps : List String) (r : EnvMap)
    (j v : String) (hr : fromWildcards m ps = some r) (h : (j, v) ∈ r) :
    (j, v) ∈ m := by
  by_cases hps : ps.isEmpty
  · simp only [fromWildcards, if_pos hps, Option.some.injEq] at hr
    rw [← hr] at h
    simp at h
  · simp only [fromWildcards, if_neg hps, Option.map_eq_some'] at hr
    obtain ⟨wm, hwm, heq⟩ := hr
    subst heq
    exact wildcardMap_mem_inclusions _ _ _ _ _ hwm (mem_resolve_sub _ _ _ h)

theorem fromWildcardsUnresolved_mem_inclusions (m : EnvMap) (ps : List String)
    (wm : WildcardMaps) (j v : String)
    (hwm : fromWildcardsUnresolved m ps = some wm)
    (h : (j, v) ∈ wm.inclusions) : (j, v) ∈ m := by
  by_cases hps : ps.isEmpty
  · simp only [fromWildcardsUnresolved, if_pos hps, Option.some.injEq] at hwm
    rw [← hwm] at h
    simp at h
  · simp only [fromWildcardsUnresolved, if_neg hps] at hwm
    exact wildcardMap_mem_inclusions _ _ _ _ _ hwm h

theorem fromWildcardsUnresolved_mem_exclusions (m : EnvMap) (ps : List String)
    (wm : WildcardMaps) (j v : String)
    (hwm : fromWildcardsUnresolved m ps = some wm)
    (h : (j, v) ∈ wm.exclusions) : (j, v) ∈ m := by
  by_cases hps : ps.isEmpty
  · simp only [fromWildcardsUnresolved, if_pos hps, Option.some.injEq] at hwm
    rw [← hwm] at h
    simp at h
  · simp only [fromWildcardsUnresolved, if_neg hps] at hwm
    exact wildcardMap_mem_exclusions _ _ _ _ _ hwm h

/-! Serialization (`map_to_pair`, `to_hashable` of
`crates/turborepo-lib/src/env.rs`).  The `pairs.sort()` call sorts the
formatted strings with Rust's `Ord for String`, i.e. lexicographically; a
sort is fully determined by sortedness plus permutation (ties are equal
strings), so the model may use any correct sorting algorithm. -/

theorem charListLe_total : ∀ x y : List Char,
    charListLe x y = true ∨ charListLe y x = true := by
  intro x
  induction x with
  | nil => intro y; exact Or.inl rfl
  | cons a as ih =>
    intro y
    cases y with
    | nil => exact Or.inr rfl
    | cons b bs =>
      by_cases hab : a = b
      · subst hab
        rcases ih bs with h | h
        · exact Or.inl (by simp [charListLe, h])
        · exact Or.inr (by simp [charListLe, h])
      · rcases lt_or_gt_of_ne hab with h | h
        · exact Or.inl (by simp [charListLe, hab, h])
        · have hba : ¬(b = a) := fun hba => hab hba.symm
          exact Or.inr (by simp [charListLe, hba, h])

theorem charListLe_trans : ∀ x y z : List Char,
    charListLe x y = true → charListLe y z = true → charListLe x z = true := by
  intro x
  induction x with
  | nil => intro y z _ _; rfl
  | cons a as ih =>
    intro y z hxy hyz
    cases y with
    | nil => simp [charListLe] at hxy
    | cons b bs =>
      cases z with
      | nil => simp [charListLe] at hyz
      | cons c cs =>
        by_cases hab : a = b
        · subst hab
          simp only [charListLe, if_pos rfl] at hxy
          simp only [eq_self_iff_true, if_true] at hxy
          by_cases hac : a = c
          · subst hac
            simp only [charListLe, if_pos rfl] at hyz ⊢
            simp only [eq_self_iff_true, if_true] at hyz ⊢
            exact ih bs cs hxy hyz
          · simp [charListLe, hac] at hyz ⊢
            exact hyz
        · simp [charListLe, hab] at hxy
          by_cases hbc : b = c
          · subst hbc
            simp [charListLe, hab, hxy]
          · simp [charListLe, hbc] at hyz
            have hac : a < c := lt_trans hxy hyz
            have hne : ¬(a = c) := ne_of_lt hac
            simp [charListLe, hne, hac]

theorem charListLe_antisymm : ∀ x y : List Char,
    charListLe x y = true → charListLe y x = true → x = y := by
  intro x
  induction x with
  | nil =>
    intro y hxy hyx
    cases y with
    | nil => rfl
    | cons b bs => simp [charListLe] at hyx
  | cons a as ih =>
    intro y hxy hyx
    cases y with
    | nil => simp [charListLe] at hxy
    | cons b bs =>
      by_cases hab : a = b
      · subst hab
        simp only [charListLe, if_pos rfl] at hxy hyx
        simp only [eq_self_iff_true, if_true] at hxy hyx
        rw [ih bs hxy hyx]
      · have hba : ¬(b = a) := fun hba => hab hba.symm
        simp [charListLe, hab] at hxy
        simp [charListLe, hba] at hyx
        exact absurd hxy (asymm hyx)

/-- The lexicographic order on strings as a relation, used for `sort()`. -/
def strLeP (a b : String) : Prop := strLe a b = true

instance : DecidableRel strLeP := fun a b =>
  inferInstanceAs (Decidable (strLe a b = true))

instance : IsTotal String strLeP :=
  ⟨fun a b => charListLe_total a.data b.data⟩

instance : IsTrans String strLeP :=
  ⟨fun a b c h1 h2 => charListLe_trans a.data b.data c.data h1 h2⟩

instance : IsAntisymm String strLeP :=
  ⟨fun a b h1 h2 => String.ext (charListLe_antisymm a.data b.data h1 h2)⟩

/-- EnvironmentVariableMap::map_to_pair: apply the transformer to every
entry, then sort the resulting formatted strings (`pairs.sort()`). -/
def mapToPair (m : EnvMap) (f : String → String → String) : List String :=
  List.insertionSort strLeP (m.map (fun p => f p.1 p.2))

/-- EnvironmentVariableMap::to_hashable: `format!("{}={}", k, v)` for every
entry, deterministically sorted. -/
def toHashable (m : EnvMap) : List String :=
  mapToPair m (fun k v => k ++ "=" ++ v)

/-- Construction of a map by inserting a sequence of key/value pairs in
order (e.g. `BTreeMap::from_iter` / repeated `insert`). -/
def fromList (l : List (String × String)) : EnvMap :=
  l.foldl (fun acc p => insertKV p.1 p.2 acc) []

theorem perm_insertKV (k v : String) (m : EnvMap) (h : k ∉ keys m) :
    (insertKV k v m).Perm ((k, v) :: m) := by
  induction m with
  | nil => simp [insertKV]
  | cons p t ih =>
    obtain ⟨k', v'⟩ := p
    have hsplit : ¬(k = k') ∧ k ∉ keys t := by
      constructor
      · intro hk
        exact h (by simp [keys, hk])
      · intro hk
        exact h (by simp [keys] at hk ⊢; exact Or.inr hk)
    by_cases hle : strLe k k' = true
    · rw [show insertKV k v ((k', v') :: t) = (k, v) :: (k', v') :: t from by
        simp [insertKV, hsplit.1, hle]]
    · rw [show insertKV k v ((k', v') :: t) = (k', v') :: insertKV k v t from by
        simp [insertKV, hsplit.1, hle]]
      exact ((ih hsplit.2).cons (k', v')).trans (List.Perm.swap (k, v) (k', v') t)

theorem foldl_insertKV_perm : ∀ (l : List (String × String)) (m : EnvMap),
    (keys m ++ keys l).Nodup →
    (l.foldl (fun acc p => insertKV p.1 p.2 acc) m).Perm (m ++ l) := by
  intro l
  induction l with
  | nil => intro m h; simp
  | cons p t ih =>
    intro m h
    obtain ⟨k, v⟩ := p
    have hk : k ∉ keys m := by
      rw [List.nodup_append] at h
      intro hkm
      exact h.2.2 hkm (by simp [keys])
    have hperm1 : (insertKV k v m).Perm ((k, v) :: m) := perm_insertKV k v m hk
    have hkeysperm : (keys (insertKV k v m)).Perm (k :: keys m) :=
      hperm1.map Prod.fst
    have hstep : (k :: (keys m ++ keys t)).Nodup := by
      apply List.Perm.nodup _ h
      exact List.perm_middle
    have hnodup2 : (keys (insertKV k v m) ++ keys t).Nodup := by
      apply List.Perm.nodup _ hstep
      exact (hkeysperm.append_right (keys t)).symm
    have step1 :
        (t.foldl (fun acc p => insertKV p.1 p.2 acc) (insertKV k v m)).Perm
          (insertKV k v m ++ t) := ih (insertKV k v m) hnodup2
    have step2 : (insertKV k v m ++ t).Perm (((k, v) :: m) ++ t) :=
      hperm1.append_right t
    have step4 : ((k, v) :: (m ++ t)).Perm (m ++ (k, v) :: t) :=
      List.perm_middle.symm
    exact (step1.trans step2).trans step4

theorem fromList_perm (l : List (String × String))
    (h : (l.map Prod.fst).Nodup) : (fromList l).Perm l := by
  have := foldl_insertKV_perm l [] (by simpa [keys] using h)
  simpa [fromList] using this

/-! SHA-256.

Modelled from the spec: `to_secret_hashable` replaces each non-empty value
by "a fixed-length one-way cryptographic digest of its bytes rendered as
hexadecimal" — concretely `Sha256::digest` of the external `sha2` crate
(not part of this repository's sources) formatted with `{:x}`.  The
implementation below is FIPS 180-4 SHA-256 over the value's UTF-8 bytes
(`str::as_bytes`), with the round constants and initial hash derived, as in
the standard, from the fractional parts of the cube and square roots of the
first primes. -/

/-- Reduction modulo 2^32, the wrap-around of all SHA-256 word
arithmetic. -/
def u32 (n : Nat) : Nat := n % 4294967296

/-- Right rotation of a 32-bit word. -/
def rotr (n x : Nat) : Nat := u32 ((x >>> n) ||| (x <<< (32 - n)))

def bsig0 (x : Nat) : Nat := (rotr 2 x) ^^^ (rotr 13 x) ^^^ (rotr 22 x)

def bsig1 (x : Nat) : Nat := (rotr 6 x) ^^^ (rotr 11 x) ^^^ (rotr 25 x)

def ssig0 (x : Nat) : Nat := (rotr 7 x) ^^^ (rotr 18 x) ^^^ (x >>> 3)

def ssig1 (x : Nat) : Nat := (rotr 17 x) ^^^ (rotr 19 x) ^^^ (x >>> 10)

def chFn (x y z : Nat) : Nat := (x &&& y) ^^^ ((x ^^^ 4294967295) &&& z)

def majFn (x y z : Nat) : Nat := (x &&& y) ^^^ (x &&& z) ^^^ (y &&& z)

/-- The first 64 primes (2, 3, 5, ..., 311), computed by trial division. -/
def sha2Primes : List Nat :=
  ((List.range 312).filter
    (fun n => decide (2 ≤ n) && ((List.range (n - 2)).all
      (fun i => n % (i + 2) != 0)))).take 64

/-- Bisection step for the integer cube root. -/
def icbrtAux : Nat → Nat → Nat → Nat → Nat
  | 0, lo, _, _ => lo
  | f + 1, lo, hi, n =>
    if hi ≤ lo + 1 then lo
    else
      let mid := (lo + hi) / 2
      if mid * mid * mid ≤ n then icbrtAux f mid hi n else icbrtAux f lo mid n

/-- Integer cube root (floor). -/
def icbrt (n : Nat) : Nat := icbrtAux 128 0 (n + 2) n

/-- First 32 bits of the fractional part of the cube root of `p`. -/
def fracCbrt32 (p : Nat) : Nat := icbrt (p * 2 ^ 96) - (icbrt p) * 2 ^ 32

/-- First 32 bits of the fractional part of the square root of `p`. -/
def fracSqrt32 (p : Nat) : Nat := Nat.sqrt (p * 2 ^ 64) - (Nat.sqrt p) * 2 ^ 32

/-- The 64 SHA-256 round constants. -/
def shaK : List Nat := sha2Primes.map fracCbrt32

/-- The eight 32-bit working variables of the compression function. -/
structure Hash8 where
  a : Nat
  b : Nat
  c : Nat
  d : Nat
  e : Nat
  f : Nat
  g : Nat
  h : Nat

/-- The SHA-256 initial hash value. -/
def initHash : Hash8 :=
  Hash8.mk (fracSqrt32 2) (fracSqrt32 3) (fracSqrt32 5) (fracSqrt32 7)
    (fracSqrt32 11) (fracSqrt32 13) (fracSqrt32 17) (fracSqrt32 19)

/-- Big-endian 32-bit words of a 64-byte block. -/
def toWords : List Nat → List Nat
  | b0 :: b1 :: b2 :: b3 :: rest =>
    (b0 * 16777216 + b1 * 65536 + b2 * 256 + b3) :: toWords rest
  | _ => []

/-- The next word of the message schedule from the words so far. -/
def nextWord (w : List Nat) : Nat :=
  u32 (ssig1 (w.getD (w.length - 2) 0) + w.getD (w.length - 7) 0 +
    ssig0 (w.getD (w.length - 15) 0) + w.getD (w.length - 16) 0)

/-- Extend the 16-word schedule by `n` further words. -/
def extendSchedule : List Nat → Nat → List Nat
  | w, 0 => w
  | w, n + 1 => extendSchedule (w ++ [nextWord w]) n

/-- One compression round. -/
def shaRound (st : Hash8) (kw : Nat × Nat) : Hash8 :=
  let t1 := u32 (st.h + bsig1 st.e + chFn st.e st.f st.g + kw.1 + kw.2)
  let t2 := u32 (bsig0 st.a + majFn st.a st.b st.c)
  Hash8.mk (u32 (t1 + t2)) st.a st.b st.c (u32 (st.d + t1)) st.e st.f st.g

/-- Process one 64-byte block. -/
def processBlock (st : Hash8) (block : List Nat) : Hash8 :=
  let w := extendSchedule (toWords block) 48
  let fin := (shaK.zip w).foldl shaRound st
  Hash8.mk (u32 (st.a + fin.a)) (u32 (st.b + fin.b)) (u32 (st.c + fin.c))
    (u32 (st.d + fin.d)) (u32 (st.e + fin.e)) (u32 (st.f + fin.f))
    (u32 (st.g + fin.g)) (u32 (st.h + fin.h))

/-- Big-endian 64-bit length field of the padding. -/
def lenBytes (n : Nat) : List Nat :=
  [(n >>> 56) % 256, (n >>> 48) % 256, (n >>> 40) % 256, (n >>> 32) % 256,
   (n >>> 24) % 256, (n >>> 16) % 256, (n >>> 8) % 256, n % 256]

/-- SHA-256 padding: `0x80`, zeros to 56 mod 64, then the bit length. -/
def padMessage (msg : List Nat) : List Nat :=
  msg ++ [128] ++ List.replicate ((119 - msg.length % 64) % 64) 0 ++
    lenBytes (msg.length * 8)

/-- Split a padded message into its 64-byte blocks (`n` of them). -/
def toBlocks : Nat → List Nat → List (List Nat)
  | 0, _ => []
  | n + 1, l => l.take 64 :: toBlocks n (l.drop 64)

/-- The SHA-256 state after absorbing a byte message. -/
def sha256Words (msg : List Nat) : Hash8 :=
  let padded := padMessage msg
  (toBlocks (padded.length / 64) padded).foldl processBlock initHash

/-- Big-endian bytes of a 32-bit word. -/
def wordBytes (w : Nat) : List Nat :=
  [(w >>> 24) % 256, (w >>> 16) % 256, (w >>> 8) % 256, w % 256]

/-- SHA-256 digest: 32 bytes. -/
def sha256 (msg : List Nat) : List Nat :=
  let hs := sha256Words msg
  wordBytes hs.a ++ wordBytes hs.b ++ wordBytes hs.c ++ wordBytes hs.d ++
    wordBytes hs.e ++ wordBytes hs.f ++ wordBytes hs.g ++ wordBytes hs.h

/-- The lowercase hexadecimal alphabet, 0-9 then a-f, by code point. -/
def hexChars : List Char :=
  (List.range 16).map (fun n => if n < 10 then Char.ofNat (48 + n) else Char.ofNat (87 + n))

def hexDigit (n : Nat) : Char := hexChars.getD (n % 16) '0'

/-- Rendering of a byte sequence with `{:x}`: two lowercase hex digits per
byte. -/
def bytesToHex : List Nat → List Char
  | [] => []
  | b :: t => hexDigit (b / 16) :: hexDigit (b % 16) :: bytesToHex t

/-- UTF-8 encoding of one scalar value. -/
def charUtf8 (c : Char) : List Nat :=
  let n := c.toNat
  if n < 128 then [n]
  else if n < 2048 then [192 + n / 64, 128 + n % 64]
  else if n < 65536 then [224 + n / 4096, 128 + (n / 64) % 64, 128 + n % 64]
  else [240 + n / 262144, 128 + (n / 4096) % 64, 128 + (n / 64) % 64,
    128 + n % 64]

/-- UTF-8 bytes of a string (`str::as_bytes`). -/
def strUtf8 : List Char → List Nat
  | [] => []
  | c :: t => charUtf8 c ++ strUtf8 t

/-- The `format!("{:x}", Sha256::digest(v.as_bytes()))` rendering. -/
def sha256hex (v : String) : String :=
  String.mk (bytesToHex (sha256 (strUtf8 v.data)))

/-- The transformer of `to_secret_hashable`: a non-empty value is replaced
by the hex digest, an empty value by nothing. -/
def secretFmt (k v : String) : String :=
  if v ≠ "" then k ++ "=" ++ sha256hex v else k ++ "="

/-- EnvironmentVariableMap::to_secret_hashable: the redacted, sorted pair
sequence. -/
def toSecretHashable (m : EnvMap) : List String :=
  mapToPair m (fun k v => secretFmt k v)

theorem bytesToHex_length (bs : List Nat) :
    (bytesToHex bs).length = 2 * bs.length := by
  induction bs with
  | nil => rfl
  | cons b t ih =>
    simp only [bytesToHex, List.length_cons, ih]
    omega

theorem sha256_length (msg : List Nat) : (sha256 msg).length = 32 := by
  simp [sha256, wordBytes]

theorem hexDigit_mem (n : Nat) : hexDigit n ∈ hexChars := by
  have hlt : n % 16 < hexChars.length := by
    have : n % 16 < 16 := Nat.mod_lt n (by norm_num)
    simpa [hexChars] using this
  rw [hexDigit, List.getD_eq_getElem hexChars '0' hlt]
  exact List.getElem_mem hlt

theorem bytesToHex_mem (bs : List Nat) (c : Char) (h : c ∈ bytesToHex bs) :
    c ∈ hexChars := by
  induction bs with
  | nil => simp [bytesToHex] at h
  | cons b t ih =>
    simp only [bytesToHex, List.mem_cons] at h
    rcases h with h | h | h
    · rw [h]; exact hexDigit_mem _
    · rw [h]; exact hexDigit_mem _
    · exact ih h

theorem sha256hex_length (v : String) : (sha256hex v).data.length = 64 := by
  show (bytesToHex (sha256 (strUtf8 v.data))).length = 64
  rw [bytesToHex_length, sha256_length]

theorem sha256hex_mem_hex (v : String) (c : Char) (h : c ∈ (sha256hex v).data) :
    c ∈ hexChars :=
  bytesToHex_mem _ c h

/-- A string that has the shape of a rendered digest: 64 characters, all
lowercase hex. -/
def isHex64 (v : String) : Prop :=
  v.data.length = 64 ∧ ∀ c ∈ v.data, c ∈ hexChars

instance (v : String) : Decidable (isHex64 v) :=
  inferInstanceAs (Decidable (v.data.length = 64 ∧ ∀ c ∈ v.data, c ∈ hexChars))

theorem sha256hex_ne_of_not_hex64 (v : String) (h : ¬isHex64 v) :
    sha256hex v ≠ v := by
  intro heq
  exact h ⟨by rw [← heq]; exact sha256hex_length v,
    fun c hc => sha256hex_mem_hex v c (by rw [heq]; exact hc)⟩

/-! The claims. -/

/-- C1: Exclusion primacy.  For every environment map `m` and pattern list
`ps`, if a key `k` of `m` matches both the compiled inclusion alternation
and the compiled exclusion alternation of `ps`, then `k` is absent from the
map returned by `from_wildcards` (the resolution of the partition):
`resolve` removes from `inclusions` every key present in `exclusions`,
regardless of evaluation order. -/
theorem C1_exclusion_primacy (m : EnvMap) (ps : List String) (k v : String)
    (incF excF : List (List Char)) (incT excT : List (List RTok)) (r : EnvMap)
    (hsplit : splitPatterns ps = some (incF, excF))
    (hincC : compileAlt incF = some incT)
    (hexcC : compileAlt excF = some excT)
    (hk : (k, v) ∈ m)
    (_hmatchI : matchesAlt incT k.data = true)
    (hmatchE : matchesAlt excT k.data = true)
    (hres : fromWildcards m ps = some r) :
    lookupEnv k r = none := by
  have hexTne : excT ≠ [] := by
    intro h0
    rw [h0] at hmatchE
    simp [matchesAlt] at hmatchE
  have hexFne : excF ≠ [] := by
    intro h0
    rw [h0] at hexcC
    simp only [compileAlt, Option.some.injEq] at hexcC
    exact hexTne hexcC.symm
  have hpsne : ps ≠ [] := by
    intro h0
    rw [h0] at hsplit
    simp only [splitPatterns, Option.some.injEq, Prod.mk.injEq] at hsplit
    exact hexFne hsplit.2.symm
  have hpse : ps.isEmpty = false := by
    cases ps with
    | nil => exact absurd rfl hpsne
    | cons a t => rfl
  have hmap := wildcardMap_eq m ps incF excF incT excT hsplit hincC hexcC
  simp only [fromWildcards, hpse, Bool.false_eq_true, if_false,
    Option.map_eq_some'] at hres
  obtain ⟨wm, hwm, hr⟩ := hres
  rw [hmap, Option.some.injEq] at hwm
  subst hwm
  have hexcNE : (!excF.isEmpty) = true := by
    cases excF with
    | nil => exact absurd rfl hexFne
    | cons a t => rfl
  have hkmem : k ∈ keys (partitionLoop (!incF.isEmpty) (!excF.isEmpty) incT excT
      m (WildcardMaps.mk [] [])).exclusions := by
    rw [hexcNE]
    exact partitionLoop_exclusions_insert (!incF.isEmpty) incT excT m k v hk
      hmatchE _
  rw [← hr, lookup_resolve, if_pos hkmem]

/-- C1 witness: for the map `{BAR ↦ 2}` and patterns `["*", "!BAR"]`, the
key `BAR` matches both alternations and is absent from the resolved map
(which is empty). -/
theorem C1_exclusion_primacy_witness :
    ((("BAR", "2") : String × String) ∈ ([("BAR", "2")] : EnvMap)) ∧
    lookupEnv "BAR" [] = none :=
  ⟨by decide,
    C1_exclusion_primacy [("BAR", "2")] ["*", "!BAR"] "BAR" "2"
      [['.', '*']] [['B', 'A', 'R']] [[RTok.star]]
      [[RTok.lit 'B', RTok.lit 'A', RTok.lit 'R']] []
      (by decide) (by decide) (by decide) (by decide) (by decide) (by decide)
      (by decide)⟩

/-- C2: Serialization determinism.  Building the map from the same
key/value pairs in any insertion order yields the identical `to_hashable`
sequence, and that sequence is sorted lexicographically on the full
formatted `name=value` string. -/
theorem C2_serialization_determinism (l1 l2 : List (String × String))
    (hperm : l1.Perm l2) (hnd : (l1.map Prod.fst).Nodup) :
    toHashable (fromList l1) = toHashable (fromList l2) ∧
    List.Sorted strLeP (toHashable (fromList l1)) := by
  constructor
  · have hnd2 : (l2.map Prod.fst).Nodup := (hperm.map Prod.fst).nodup hnd
    have p1 := fromList_perm l1 hnd
    have p2 := fromList_perm l2 hnd2
    have pm : (fromList l1).Perm (fromList l2) := p1.trans (hperm.trans p2.symm)
    have pmap : ((fromList l1).map (fun p => p.1 ++ "=" ++ p.2)).Perm
        ((fromList l2).map (fun p => p.1 ++ "=" ++ p.2)) := pm.map _
    apply List.eq_of_perm_of_sorted (r := strLeP)
    · exact ((List.perm_insertionSort _ _).trans pmap).trans
        (List.perm_insertionSort _ _).symm
    · exact List.sorted_insertionSort _ _
    · exact List.sorted_insertionSort _ _
  · exact List.sorted_insertionSort _ _

/-- C2 witness: two insertion orders of `{A ↦ 1, B ↦ 2}` serialize
identically, sorted. -/
theorem C2_serialization_determinism_witness :
    (([("B", "2"), ("A", "1")] : List (String × String)).Perm
        [("A", "1"), ("B", "2")] ∧
      (([("B", "2"), ("A", "1")] : List (String × String)).map Prod.fst).Nodup) ∧
    toHashable (fromList [("B", "2"), ("A", "1")]) =
      toHashable (fromList [("A", "1"), ("B", "2")]) ∧
    List.Sorted strLeP (toHashable (fromList [("B", "2"), ("A", "1")])) :=
  ⟨⟨by decide, by decide⟩,
    (C2_serialization_determinism [("B", "2"), ("A", "1")]
      [("A", "1"), ("B", "2")] (by decide) (by decide)).1,
    (C2_serialization_determinism [("B", "2"), ("A", "1")]
      [("A", "1"), ("B", "2")] (by decide) (by decide)).2⟩

/-- C3 counterexample: the claim "the produced string never contains the
original value as a substring" fails at the entry `("A", "A")`: the
serialized string starts with the name `A`, which is also the value. -/
theorem C3_secret_hashable_counterexample :
    toSecretHashable [("A", "A")] = [secretFmt "A" "A"] ∧
    List.IsInfix "A".data (secretFmt "A" "A").data := by
  constructor
  · simp [toSecretHashable, mapToPair, List.insertionSort, List.orderedInsert]
  · have hd : secretFmt "A" "A" = "A" ++ "=" ++ sha256hex "A" := by
      rw [secretFmt, if_pos (by decide : ("A" : String) ≠ "")]
    rw [hd]
    refine ⟨[], "=".data ++ (sha256hex "A").data, ?_⟩
    simp [String.data_append]

/-- C3 (amended): `to_secret_hashable` serializes an empty-value entry as
`name=` and a non-empty-value entry as `name=` followed by the 64-character
lowercase-hex SHA-256 digest of the value's bytes; consequently the digest
segment never equals the original value unless the value is itself a
64-character lowercase-hex string; and the output obeys the same
sort-after-format contract as the raw serialization. -/
theorem C3_secret_hashable_shape (m : EnvMap) (k v : String) :
    secretFmt k "" = k ++ "=" ∧
    (v ≠ "" → secretFmt k v = k ++ "=" ++ sha256hex v ∧
      (sha256hex v).data.length = 64 ∧
      (∀ c ∈ (sha256hex v).data, c ∈ hexChars) ∧
      (¬isHex64 v → sha256hex v ≠ v)) ∧
    List.Sorted strLeP (toSecretHashable m) := by
  refine ⟨?_, ?_, ?_⟩
  · rw [secretFmt, if_neg (by simp)]
  · intro hv
    exact ⟨by rw [secretFmt, if_pos hv], sha256hex_length v,
      fun c hc => sha256hex_mem_hex v c hc,
      fun h => sha256hex_ne_of_not_hex64 v h⟩
  · exact List.sorted_insertionSort _ _

/-- C3 witness: concrete instance at the entry `("NAME", "x")`. -/
theorem C3_secret_hashable_shape_witness :
    (("x" : String) ≠ "" ∧ ¬isHex64 "x") ∧
    secretFmt "NAME" "x" = "NAME" ++ "=" ++ sha256hex "x" ∧
    (sha256hex "x").data.length = 64 ∧
    sha256hex "x" ≠ "x" ∧
    List.Sorted strLeP (toSecretHashable [("NAME", "x")]) := by
  have h := C3_secret_hashable_shape [("NAME", "x")] "NAME" "x"
  have h2 := h.2.1 (by decide)
  exact ⟨⟨by decide, by decide⟩, h2.1, h2.2.1, h2.2.2.2 (by decide), h.2.2⟩

/-- C4: the claim states the pattern compiler is total for every input
string, including multi-byte characters adjacent to `*`; instead, both
implementations slice the pattern at a character-index-derived byte offset
and hit a non-boundary byte on the pattern `é*` — the model of the Rust
panic (`none`). -/
theorem C4_compiler_panics_on_multibyte :
    wildcardToRegexPatternEnv "é*".data = none ∧
    wildcardToRegexPatternLib "é*".data = none := by
  exact ⟨by decide, by decide⟩

/-- C5: the claim states both modules compile `A\*B` to a fragment matching
exactly the literal `A*B`.  The turborepo-env implementation does (first
three conjuncts); the turborepo-lib implementation appends the `*` after
escaping, producing the fragment `A*B` whose anchored regex accepts `AB`
and rejects the literal `A*B` (last three conjuncts). -/
theorem C5_escaped_literal_asterisk :
    wildcardToRegexPatternEnv "A\\*B".data = some "A\\*B".data ∧
    parseFrag "A\\*B".data = some [RTok.lit 'A', RTok.lit '*', RTok.lit 'B'] ∧
    (∀ s : List Char,
      matchToks [RTok.lit 'A', RTok.lit '*', RTok.lit 'B'] s = true ↔
        s = ['A', '*', 'B']) ∧
    wildcardToRegexPatternLib "A\\*B".data = some "A*B".data ∧
    parseFrag "A*B".data = some [RTok.rep 'A', RTok.lit 'B'] ∧
    matchToks [RTok.rep 'A', RTok.lit 'B'] "AB".data = true ∧
    matchToks [RTok.rep 'A', RTok.lit 'B'] "A*B".data = false := by
  refine ⟨by decide, by decide, ?_, by decide, by decide, by decide, by decide⟩
  intro s
  exact matchToks_lits ['A', '*', 'B'] s

/-- C6: the claim states the emitted fragment never contains two adjacent
dynamic segments.  The guard compares against the just-pushed static
segment, which for adjacent wildcards is the empty string, so `A**`
compiles to `A.*.*` — two adjacent dynamic segments.  The `A*B*C` part of
the claim does hold: the fragment is `A.*B.*C`, matching `A<any>B<any>C`
and rejecting `AXC`. -/
theorem C6_adjacent_dynamic_segments :
    wildcardToRegexPatternEnv "A**".data = some "A.*.*".data ∧
    List.IsInfix (regexWildcardSegment ++ regexWildcardSegment) "A.*.*".data ∧
    wildcardToRegexPatternEnv "A*B*C".data = some "A.*B.*C".data ∧
    parseFrag "A.*B.*C".data =
      some [RTok.lit 'A', RTok.star, RTok.lit 'B', RTok.star, RTok.lit 'C'] ∧
    matchToks [RTok.lit 'A', RTok.star, RTok.lit 'B', RTok.star, RTok.lit 'C']
      "AXBYC".data = true ∧
    matchToks [RTok.lit 'A', RTok.star, RTok.lit 'B', RTok.star, RTok.lit 'C']
      "ABC".data = true ∧
    matchToks [RTok.lit 'A', RTok.star, RTok.lit 'B', RTok.star, RTok.lit 'C']
      "AXC".data = false := by
  exact ⟨by decide, by decide, by decide, by decide, by decide, by decide,
    by decide⟩

/-- C7: the claim states `from_wildcards` terminates and returns `Ok` for
every snapshot and pattern list.  The empty-list short-circuit holds for
every snapshot (first conjunct, no regex is ever built), but the pattern
`é*` makes the compiler slice mid-character and panic, so the call does not
return `Ok` (second conjunct, `none` models the panic). -/
theorem C7_from_wildcards_empty_and_panic :
    (∀ m : EnvMap, fromWildcards m [] = some []) ∧
    fromWildcards [("A", "1")] ["é*"] = none := by
  exact ⟨fun m => rfl, by decide⟩

/-- C8: Union/difference algebra: `union` is right-biased (a key of `b`
keeps `b`'s value, a key only in `a` keeps `a`'s value); `difference`
removes every key of the other map regardless of value equality; and
`A.union(B).difference(B)` need not equal `A`. -/
theorem C8_union_difference_algebra :
    (∀ (a b : EnvMap) (k v : String), (keys b).Nodup →
      lookupEnv k b = some v → lookupEnv k (union a b) = some v) ∧
    (∀ (a b : EnvMap) (k : String), lookupEnv k b = none →
      lookupEnv k (union a b) = lookupEnv k a) ∧
    (∀ (a b : EnvMap) (k v : String), (k, v) ∈ b →
      lookupEnv k (difference a b) = none) ∧
    difference (union [("K", "1")] [("K", "2")]) [("K", "2")] ≠ [("K", "1")] := by
  refine ⟨?_, ?_, ?_, by decide⟩
  · intro a b k v hnd h
    exact lookup_union_of_some b a k v hnd h
  · intro a b k h
    exact lookup_union_of_none b a k h
  · intro a b k v h
    rw [lookup_difference, if_pos]
    exact List.mem_map.mpr ⟨(k, v), h, rfl⟩

/-- C8 witness: concrete instances of all three quantified parts. -/
theorem C8_union_difference_algebra_witness :
    ((keys [("K", "2")]).Nodup ∧ lookupEnv "K" [("K", "2")] = some "2" ∧
      lookupEnv "Z" [("K", "2")] = none ∧
      (("K", "2") : String × String) ∈ ([("K", "2")] : EnvMap)) ∧
    lookupEnv "K" (union [("A", "1")] [("K", "2")]) = some "2" ∧
    lookupEnv "Z" (union [("Z", "9")] [("K", "2")]) = lookupEnv "Z" [("Z", "9")] ∧
    lookupEnv "K" (difference [("K", "1")] [("K", "2")]) = none := by
  have h := C8_union_difference_algebra
  exact ⟨⟨by decide, by decide, by decide, by decide⟩,
    h.1 [("A", "1")] [("K", "2")] "K" "2" (by decide) (by decide),
    h.2.1 [("Z", "9")] [("K", "2")] "Z" (by decide),
    h.2.2.1 [("K", "1")] [("K", "2")] "K" "2" (by decide)⟩

/-- C9: End-to-end hash-input assembly under the intended
partition-then-resolve contract: for the snapshot
`{FOO ↦ 1, BAR ↦ 2, VERCEL_ANALYTICS_ID ↦ x}`, user patterns
`["FOO", "!BAR"]` and the default list, the builder produces
`explicit = {FOO ↦ 1}`, `matching = {VERCEL_ANALYTICS_ID ↦ x}`,
`all = {FOO ↦ 1, VERCEL_ANALYTICS_ID ↦ x}`, with `BAR` absent from all
three maps. -/
theorem C9_global_hash_scenario :
    getGlobalHashInputs [("BAR", "2"), ("FOO", "1"), ("VERCEL_ANALYTICS_ID", "x")]
        ["FOO", "!BAR"] =
      some (DetailedMap.mk [("FOO", "1"), ("VERCEL_ANALYTICS_ID", "x")]
        (BySource.mk [("FOO", "1")] [("VERCEL_ANALYTICS_ID", "x")])) ∧
    lookupEnv "BAR" [("FOO", "1"), ("VERCEL_ANALYTICS_ID", "x")] = none ∧
    lookupEnv "BAR" [("FOO", "1")] = none ∧
    lookupEnv "BAR" [("VERCEL_ANALYTICS_ID", "x")] = none := by
  exact ⟨by decide, by decide, by decide, by decide⟩

/-- C10: Snapshot containment: every key/value pair of the partition's
inclusions and exclusions, of the resolved map, and of the `all` /
`explicit` / `matching` maps of the DetailedMap is a pair of the input
snapshot — no operation invents a key or alters a value. -/
theorem C10_snapshot_containment (m : EnvMap) (ps genv : List String)
    (wm : WildcardMaps) (r : EnvMap) (dm : DetailedMap) (j v : String)
    (hwm : wildcardMapFromWildcards m ps = some wm)
    (hr : fromWildcards m ps = some r)
    (hdm : getGlobalHashInputs m genv = some dm) :
    ((j, v) ∈ wm.inclusions → (j, v) ∈ m) ∧
    ((j, v) ∈ wm.exclusions → (j, v) ∈ m) ∧
    ((j, v) ∈ r → (j, v) ∈ m) ∧
    ((j, v) ∈ dm.all → (j, v) ∈ m) ∧
    ((j, v) ∈ dm.by_source.explicit → (j, v) ∈ m) ∧
    ((j, v) ∈ dm.by_source.matching → (j, v) ∈ m) := by
  simp only [getGlobalHashInputs, Option.bind_eq_some, Option.map_eq_some'] at hdm
  obtain ⟨defaultMap, hdef, userSet, huser, heq⟩ := hdm
  subst heq
  refine ⟨?_, ?_, ?_, ?_, ?_, ?_⟩
  · exact fun h => wildcardMap_mem_inclusions m ps wm j v hwm h
  · exact fun h => wildcardMap_mem_exclusions m ps wm j v hwm h
  · exact fun h => fromWildcards_mem_sub m ps r j v hr h
  · intro h
    have h1 := mem_difference_sub _ _ _ _ h
    rcases mem_union_cases _ _ _ _ h1 with h2 | h2
    · rcases mem_union_cases _ _ _ _ h2 with h3 | h3
      · simp at h3
      · exact fromWildcardsUnresolved_mem_inclusions m genv userSet j v huser h3
    · exact fromWildcards_mem_sub m DEFAULT_ENV_VARS defaultMap j v hdef h2
  · intro h
    have h1 := mem_difference_sub _ _ _ _ h
    rcases mem_union_cases _ _ _ _ h1 with h2 | h2
    · simp at h2
    · exact fromWildcardsUnresolved_mem_inclusions m genv userSet j v huser h2
  · intro h
    have h1 := mem_difference_sub _ _ _ _ h
    rcases mem_union_cases _ _ _ _ h1 with h2 | h2
    · simp at h2
    · exact fromWildcards_mem_sub m DEFAULT_ENV_VARS defaultMap j v hdef h2

/-- C10 witness: concrete instantiation on the snapshot `{A ↦ 1}` with
pattern list `["A"]`. -/
theorem C10_snapshot_containment_witness :
    (wildcardMapFromWildcards [("A", "1")] ["A"] =
        some (WildcardMaps.mk [("A", "1")] []) ∧
      fromWildcards [("A", "1")] ["A"] = some [("A", "1")] ∧
      getGlobalHashInputs [("A", "1")] ["A"] =
        some (DetailedMap.mk [("A", "1")] (BySource.mk [("A", "1")] []))) ∧
    (("A", "1") : String × String) ∈ ([("A", "1")] : EnvMap) := by
  have h := C10_snapshot_containment [("A", "1")] ["A"] ["A"]
    (WildcardMaps.mk [("A", "1")] []) [("A", "1")]
    (DetailedMap.mk [("A", "1")] (BySource.mk [("A", "1")] [])) "A" "1"
    (by decide) (by decide) (by decide)
  exact ⟨⟨by decide, by decide, by decide⟩, h.1 (by decide)⟩

end Turbo
